import Mathlib

/-!
Verification of the in-memory employee record index
(`src/service/employee/EmployeesServiceMap.ts`).

The service keeps a JavaScript `Map<string, Employee>` plus a boolean
`_isUpdated` flag.  We embed the map as an association list kept in
insertion order (which is exactly the iteration order of a JS `Map`),
and each service method as a pure function that threads the state
explicitly.  A method that can `throw` returns `Except ServiceError α`
together with the post-state: a `throw` exits with the state as it was
at the point of the throw.

JavaScript-specific semantics that matter here and are translated
faithfully:
* `empl.id ?? uuidv4()` (nullish coalescing) falls back to the fresh
  identifier only when `id` is `undefined`/`null`; an empty string is
  kept.  We model `id : Option String`, with `none` for undefined.
* `if (employee.id)` and `if (department)` are truthiness tests: they
  fail for `undefined` and for the empty string.
* `Object.assign(existing, empl)` copies every property present on the
  patch object onto the record, including the `id` property.
* the fresh identifier produced by `uuidv4()` is external randomness;
  the embedding takes it as an explicit `genId` argument.
-/

/-- Modelled from the spec: the Employee record type
(`src/model/dtoTypes/Employee.ts` is not part of the sources given);
fields follow section 3 of the spec, with `id` optional exactly as the
service code uses it (`empl.id ?? uuidv4()`, `if (employee.id)`). -/
structure Employee where
  id : Option String
  fullName : String
  avatar : Option String
  department : String
  birthDate : String
  salary : Int
deriving DecidableEq, Repr

/-- A `Partial<Employee>`: every field may be absent.  A present field
is copied onto the record by `Object.assign`, so for the fields that
are themselves optional the present value is again an `Option`. -/
structure EmployeePatch where
  id : Option (Option String) := none
  fullName : Option String := none
  avatar : Option (Option String) := none
  department : Option String := none
  birthDate : Option String := none
  salary : Option Int := none
deriving DecidableEq, Repr

/-- The two error classes of `employeeErrors.ts`, each carrying the id. -/
inductive ServiceError where
  | alreadyExists (id : String)
  | notFound (id : String)
deriving DecidableEq, Repr

/-- The `Map<string, Employee>` contents, in insertion order. -/
abbrev EmpMap := List (String × Employee)

/-- `Map.prototype.get`: first (only) entry with the given key. -/
def mapGet : EmpMap → String → Option Employee
  | [], _ => none
  | (k, v) :: rest, k0 => if k = k0 then some v else mapGet rest k0

/-- `Map.prototype.has`. -/
def mapHas (m : EmpMap) (k : String) : Bool :=
  (mapGet m k).isSome

/-- `Map.prototype.set`: replace in place if the key is present
(keeping its position), otherwise append. -/
def mapSet : EmpMap → String → Employee → EmpMap
  | [], k0, v0 => [(k0, v0)]
  | (k, v) :: rest, k0, v0 =>
    if k = k0 then (k, v0) :: rest else (k, v) :: mapSet rest k0 v0

/-- `Map.prototype.delete`: remove the entry with the given key. -/
def mapDelete : EmpMap → String → EmpMap
  | [], _ => []
  | (k, v) :: rest, k0 =>
    if k = k0 then rest else (k, v) :: mapDelete rest k0

/-- `Array.from(map.values())`, in insertion order. -/
def mapValues (m : EmpMap) : List Employee :=
  m.map Prod.snd

/-- The private state of `EmployeesServiceMap`: the map and the
`_isUpdated` flag. -/
structure ServiceState where
  employees : EmpMap
  isUpdated : Bool
deriving DecidableEq, Repr

/-- One iteration of the loop in `_fillEmployeeMap`: insert the record
keyed by its id when the id is truthy (present and non-empty),
otherwise skip it (the source logs a warning). -/
def fillStep (m : EmpMap) (employee : Employee) : EmpMap :=
  match employee.id with
  | some i => if i = "" then m else mapSet m i employee
  | none => m

/-- `_fillEmployeeMap` (the reload operation of the spec): clear the
map, then insert each input record keyed by its id, skipping records
whose id is not truthy.  The `_isUpdated` flag is not touched. -/
def fillEmployeeMap (s : ServiceState) (employees : List Employee) : ServiceState :=
  { s with employees := employees.foldl fillStep [] }

/-- `addEmployee`.  `genId` stands for the value of `uuidv4()`. -/
def addEmployee (s : ServiceState) (genId : String) (empl : Employee) :
    Except ServiceError Employee × ServiceState :=
  let id : String := empl.id.getD genId
  if mapHas s.employees id then
    (.error (.alreadyExists id), s)
  else
    let stored : Employee := { empl with id := some id }
    (.ok stored, { employees := mapSet s.employees id stored, isUpdated := true })

/-- `getAll`: all values, filtered by strict equality on `department`
when the argument is truthy (present and non-empty). -/
def getAll (s : ServiceState) (department : Option String) : List Employee :=
  let all := mapValues s.employees
  match department with
  | some d => if d = "" then all else all.filter (fun empl => empl.department = d)
  | none => all

/-- `_getById`: look the id up, `NotFoundError` when absent (a record
object is always truthy, so `!existing` holds exactly for a miss). -/
def getById (s : ServiceState) (id : String) : Except ServiceError Employee :=
  match mapGet s.employees id with
  | some existing => .ok existing
  | none => .error (.notFound id)

/-- `Object.assign(existing, empl)`: every field present on the patch
overwrites the corresponding field of the record, `id` included. -/
def applyPatch (existing : Employee) (empl : EmployeePatch) : Employee :=
  { id := empl.id.getD existing.id
    fullName := empl.fullName.getD existing.fullName
    avatar := empl.avatar.getD existing.avatar
    department := empl.department.getD existing.department
    birthDate := empl.birthDate.getD existing.birthDate
    salary := empl.salary.getD existing.salary }

/-- `updateEmployee`: find the record (throwing `NotFoundError`), merge
the patch into it in place, set the flag, return it.  The in-place
mutation leaves the object stored under the lookup key, so the map
entry at `id` now holds the merged record whatever the patch contains. -/
def updateEmployee (s : ServiceState) (id : String) (empl : EmployeePatch) :
    Except ServiceError Employee × ServiceState :=
  match getById s id with
  | .error e => (.error e, s)
  | .ok existing =>
    let updated := applyPatch existing empl
    (.ok updated, { employees := mapSet s.employees id updated, isUpdated := true })

/-- `deleteEmployee`: find the record (throwing `NotFoundError`),
remove its key, set the flag, return the prior value. -/
def deleteEmployee (s : ServiceState) (id : String) :
    Except ServiceError Employee × ServiceState :=
  match getById s id with
  | .error e => (.error e, s)
  | .ok existing =>
    (.ok existing, { employees := mapDelete s.employees id, isUpdated := true })

/-- `toArray` (the `toSnapshot` of the spec). -/
def toArray (s : ServiceState) : List Employee :=
  mapValues s.employees

/-- `isUpdated` (the `hasUnsavedChanges` query of the spec), with the
state threaded explicitly to make its purity a statable fact. -/
def isUpdatedQuery (s : ServiceState) : Bool × ServiceState :=
  (s.isUpdated, s)

/-- States reachable from construction (`_loadFromFile` fills the map
from an arbitrary loaded list, the flag starts at the constructor
argument) by the public mutating operations.  Failing calls return the
unchanged state, so taking the post-state component covers both
outcomes. -/
inductive Reachable : ServiceState → Prop where
  | init (flag : Bool) (loaded : List Employee) :
      Reachable (fillEmployeeMap ⟨[], flag⟩ loaded)
  | addStep {s : ServiceState} (genId : String) (empl : Employee)
      (h : Reachable s) : Reachable (addEmployee s genId empl).2
  | updateStep {s : ServiceState} (id : String) (empl : EmployeePatch)
      (h : Reachable s) : Reachable (updateEmployee s id empl).2
  | deleteStep {s : ServiceState} (id : String)
      (h : Reachable s) : Reachable (deleteEmployee s id).2
  | reloadStep {s : ServiceState} (records : List Employee)
      (h : Reachable s) : Reachable (fillEmployeeMap s records)

/-- The section 3 invariant of the spec, as a decidable predicate on
the map: every stored entry holds a record whose `id` field is exactly
the key it is stored under, and that key is non-empty. -/
def wfMap (m : EmpMap) : Bool :=
  m.all fun p => p.2.id == some p.1 && !(p.1 == "")

/-- Keys of the map, in order. -/
def mapKeys (m : EmpMap) : List String :=
  m.map Prod.fst

/-- A real JS `Map` never holds two entries with one key. -/
def keysNodup (m : EmpMap) : Prop :=
  (mapKeys m).Nodup

/-! ### Association-list lemmas -/

theorem mapKeys_nil : mapKeys [] = [] := rfl

theorem mapKeys_cons (k : String) (v : Employee) (m : EmpMap) :
    mapKeys ((k, v) :: m) = k :: mapKeys m := rfl

theorem mapKeys_append (m1 m2 : EmpMap) :
    mapKeys (m1 ++ m2) = mapKeys m1 ++ mapKeys m2 :=
  List.map_append _ _ _

theorem mapValues_cons (k : String) (v : Employee) (m : EmpMap) :
    mapValues ((k, v) :: m) = v :: mapValues m := rfl

theorem mapGet_set_self (m : EmpMap) (k : String) (v : Employee) :
    mapGet (mapSet m k v) k = some v := by
  induction m with
  | nil => simp [mapSet, mapGet]
  | cons p rest ih =>
    obtain ⟨k1, v1⟩ := p
    by_cases h : k1 = k <;> simp [mapSet, mapGet, h, ih]

theorem mapGet_set_ne (m : EmpMap) (k k0 : String) (v : Employee) (h : k ≠ k0) :
    mapGet (mapSet m k v) k0 = mapGet m k0 := by
  induction m with
  | nil => simp [mapSet, mapGet, h]
  | cons p rest ih =>
    obtain ⟨k1, v1⟩ := p
    by_cases h1 : k1 = k
    · subst h1
      simp [mapSet, mapGet, h]
    · simp [mapSet, mapGet, h1, ih]

theorem mapGet_eq_none_iff (m : EmpMap) (k : String) :
    mapGet m k = none ↔ k ∉ mapKeys m := by
  induction m with
  | nil => simp [mapGet, mapKeys_nil]
  | cons p rest ih =>
    obtain ⟨k1, v1⟩ := p
    by_cases h : k1 = k
    · subst h
      simp [mapGet, mapKeys_cons]
    · rw [mapGet, if_neg h, mapKeys_cons, ih]
      constructor
      · intro h0 hc
        rcases List.mem_cons.mp hc with he | hm
        · exact h he.symm
        · exact h0 hm
      · intro h0 hm
        exact h0 (List.mem_cons_of_mem _ hm)

theorem mapHas_false_iff (m : EmpMap) (k : String) :
    mapHas m k = false ↔ k ∉ mapKeys m := by
  rw [← mapGet_eq_none_iff]
  unfold mapHas
  cases mapGet m k <;> simp

theorem mapSet_of_fresh (m : EmpMap) (k : String) (v : Employee)
    (h : k ∉ mapKeys m) : mapSet m k v = m ++ [(k, v)] := by
  induction m with
  | nil => simp [mapSet]
  | cons p rest ih =>
    obtain ⟨k1, v1⟩ := p
    rw [mapKeys_cons, List.mem_cons] at h
    push_neg at h
    rw [mapSet, if_neg (fun he => h.1 he.symm), ih h.2]
    simp

theorem mem_of_mapGet_eq_some {m : EmpMap} {k : String} {v : Employee}
    (h : mapGet m k = some v) : (k, v) ∈ m := by
  induction m with
  | nil => simp [mapGet] at h
  | cons p rest ih =>
    obtain ⟨k1, v1⟩ := p
    by_cases h1 : k1 = k
    · subst h1
      rw [mapGet, if_pos rfl] at h
      injection h with h2
      subst h2
      exact List.mem_cons_self _ _
    · rw [mapGet, if_neg h1] at h
      exact List.mem_cons_of_mem _ (ih h)

theorem mapGet_of_mem {m : EmpMap} {k : String} {v : Employee}
    (hnd : keysNodup m) (h : (k, v) ∈ m) : mapGet m k = some v := by
  induction m with
  | nil => simp at h
  | cons p rest ih =>
    obtain ⟨k1, v1⟩ := p
    rw [keysNodup, mapKeys_cons, List.nodup_cons] at hnd
    rcases List.mem_cons.mp h with h0 | h0
    · injection h0 with hk hv
      subst hk
      subst hv
      rw [mapGet, if_pos rfl]
    · have hk1 : k1 ≠ k := by
        intro he
        subst he
        exact hnd.1 (List.mem_map_of_mem Prod.fst h0)
      rw [mapGet, if_neg hk1]
      exact ih hnd.2 h0

theorem mem_mapSet {m : EmpMap} {k : String} {v : Employee} {p : String × Employee}
    (h : p ∈ mapSet m k v) : p = (k, v) ∨ p ∈ m := by
  induction m with
  | nil =>
    simp only [mapSet, List.mem_singleton] at h
    exact Or.inl h
  | cons q rest ih =>
    obtain ⟨k1, v1⟩ := q
    by_cases h1 : k1 = k
    · subst h1
      rw [mapSet, if_pos rfl] at h
      rcases List.mem_cons.mp h with h0 | h0
      · exact Or.inl (by rw [h0])
      · exact Or.inr (List.mem_cons_of_mem _ h0)
    · rw [mapSet, if_neg h1] at h
      rcases List.mem_cons.mp h with h0 | h0
      · exact Or.inr (by rw [h0]; exact List.mem_cons_self _ _)
      · rcases ih h0 with h2 | h2
        · exact Or.inl h2
        · exact Or.inr (List.mem_cons_of_mem _ h2)

theorem mapKeys_set_of_mem {m : EmpMap} {k : String} (v : Employee)
    (h : k ∈ mapKeys m) : mapKeys (mapSet m k v) = mapKeys m := by
  induction m with
  | nil => simp [mapKeys_nil] at h
  | cons q rest ih =>
    obtain ⟨k1, v1⟩ := q
    by_cases h1 : k1 = k
    · subst h1
      rw [mapSet, if_pos rfl, mapKeys_cons, mapKeys_cons]
    · have h2 : k ∈ mapKeys rest := by
        rw [mapKeys_cons] at h
        rcases List.mem_cons.mp h with h0 | h0
        · exact absurd h0 (fun he => h1 he.symm)
        · exact h0
      rw [mapSet, if_neg h1, mapKeys_cons, mapKeys_cons, ih h2]

theorem keysNodup_set {m : EmpMap} (k : String) (v : Employee)
    (hnd : keysNodup m) : keysNodup (mapSet m k v) := by
  by_cases h : k ∈ mapKeys m
  · rw [keysNodup, mapKeys_set_of_mem v h]
    exact hnd
  · rw [keysNodup, mapSet_of_fresh m k v h, mapKeys_append]
    have h1 : (mapKeys m).Nodup := hnd
    simp [List.nodup_append, h1, h, mapKeys_cons, mapKeys_nil]

theorem mem_mapDelete {m : EmpMap} {k : String} {p : String × Employee}
    (h : p ∈ mapDelete m k) : p ∈ m := by
  induction m with
  | nil => simp [mapDelete] at h
  | cons q rest ih =>
    obtain ⟨k1, v1⟩ := q
    by_cases h1 : k1 = k
    · subst h1
      rw [mapDelete, if_pos rfl] at h
      exact List.mem_cons_of_mem _ h
    · rw [mapDelete, if_neg h1] at h
      rcases List.mem_cons.mp h with h0 | h0
      · rw [h0]
        exact List.mem_cons_self _ _
      · exact List.mem_cons_of_mem _ (ih h0)

theorem mapKeys_delete_subset {m : EmpMap} {k a : String}
    (h : a ∈ mapKeys (mapDelete m k)) : a ∈ mapKeys m := by
  rw [mapKeys] at h
  rcases List.mem_map.mp h with ⟨p, hp, he⟩
  exact he ▸ List.mem_map_of_mem Prod.fst (mem_mapDelete hp)

theorem keysNodup_delete {m : EmpMap} (k : String)
    (hnd : keysNodup m) : keysNodup (mapDelete m k) := by
  induction m with
  | nil => simpa [mapDelete] using hnd
  | cons q rest ih =>
    obtain ⟨k1, v1⟩ := q
    rw [keysNodup, mapKeys_cons, List.nodup_cons] at hnd
    by_cases h1 : k1 = k
    · subst h1
      rw [mapDelete, if_pos rfl]
      exact hnd.2
    · rw [mapDelete, if_neg h1, keysNodup, mapKeys_cons, List.nodup_cons]
      exact ⟨fun hm => hnd.1 (mapKeys_delete_subset hm), ih hnd.2⟩

theorem mapGet_delete_self {m : EmpMap} (k : String)
    (hnd : keysNodup m) : mapGet (mapDelete m k) k = none := by
  induction m with
  | nil => simp [mapDelete, mapGet]
  | cons q rest ih =>
    obtain ⟨k1, v1⟩ := q
    rw [keysNodup, mapKeys_cons, List.nodup_cons] at hnd
    by_cases h1 : k1 = k
    · subst h1
      rw [mapDelete, if_pos rfl, mapGet_eq_none_iff]
      exact hnd.1
    · rw [mapDelete, if_neg h1, mapGet, if_neg h1]
      exact ih hnd.2

theorem mapGet_delete_ne (m : EmpMap) (k k0 : String) (h : k ≠ k0) :
    mapGet (mapDelete m k) k0 = mapGet m k0 := by
  induction m with
  | nil => simp [mapDelete]
  | cons q rest ih =>
    obtain ⟨k1, v1⟩ := q
    by_cases h1 : k1 = k
    · subst h1
      simp [mapDelete, mapGet, h]
    · simp [mapDelete, mapGet, h1, ih]

/-! ### Invariant lemmas -/

theorem wfMap_iff (m : EmpMap) :
    wfMap m = true ↔ ∀ p ∈ m, p.2.id = some p.1 ∧ p.1 ≠ "" := by
  unfold wfMap
  rw [List.all_eq_true]
  constructor
  · intro h p hp
    have h2 := h p hp
    simp only [Bool.and_eq_true, beq_iff_eq, Bool.not_eq_true] at h2
    refine ⟨h2.1, ?_⟩
    intro he
    rw [he] at h2
    simp at h2
  · intro h p hp
    have h2 := h p hp
    simp [h2.1, h2.2]

theorem wfMap_set {m : EmpMap} {k : String} {v : Employee}
    (hm : wfMap m = true) (hv : v.id = some k) (hk : k ≠ "") :
    wfMap (mapSet m k v) = true := by
  rw [wfMap_iff] at hm ⊢
  intro p hp
  rcases mem_mapSet hp with h0 | h0
  · rw [h0]
    exact ⟨hv, hk⟩
  · exact hm p h0

theorem wfMap_delete {m : EmpMap} (k : String)
    (hm : wfMap m = true) : wfMap (mapDelete m k) = true := by
  rw [wfMap_iff] at hm ⊢
  exact fun p hp => hm p (mem_mapDelete hp)

theorem wfMap_fillStep {acc : EmpMap} (e : Employee)
    (hacc : wfMap acc = true) : wfMap (fillStep acc e) = true := by
  rcases he : e.id with _ | i
  · simpa [fillStep, he] using hacc
  · by_cases hi : i = ""
    · simpa [fillStep, he, hi] using hacc
    · rw [show fillStep acc e = mapSet acc i e from by simp [fillStep, he, hi]]
      exact wfMap_set hacc he hi

theorem wfMap_foldl_fill (es : List Employee) :
    ∀ acc : EmpMap, wfMap acc = true → wfMap (es.foldl fillStep acc) = true := by
  induction es with
  | nil => intro acc hacc; simpa using hacc
  | cons e rest ih =>
    intro acc hacc
    rw [List.foldl_cons]
    exact ih _ (wfMap_fillStep e hacc)

theorem keysNodup_fillStep {acc : EmpMap} (e : Employee)
    (hacc : keysNodup acc) : keysNodup (fillStep acc e) := by
  rcases he : e.id with _ | i
  · simpa [fillStep, he] using hacc
  · by_cases hi : i = ""
    · simpa [fillStep, he, hi] using hacc
    · rw [show fillStep acc e = mapSet acc i e from by simp [fillStep, he, hi]]
      exact keysNodup_set i e hacc

theorem keysNodup_foldl_fill (es : List Employee) :
    ∀ acc : EmpMap, keysNodup acc → keysNodup (es.foldl fillStep acc) := by
  induction es with
  | nil => intro acc hacc; simpa using hacc
  | cons e rest ih =>
    intro acc hacc
    rw [List.foldl_cons]
    exact ih _ (keysNodup_fillStep e hacc)

theorem wfMap_fill (s : ServiceState) (records : List Employee) :
    wfMap (fillEmployeeMap s records).employees = true :=
  wfMap_foldl_fill records [] (by rfl)

theorem keysNodup_fill (s : ServiceState) (records : List Employee) :
    keysNodup (fillEmployeeMap s records).employees :=
  keysNodup_foldl_fill records [] (by simp [keysNodup, mapKeys_nil])

/-! ### Operation characterizations -/

theorem addEmployee_spec (s : ServiceState) (genId : String) (empl : Employee) :
    (mapHas s.employees (empl.id.getD genId) = true ∧
      addEmployee s genId empl =
        (.error (.alreadyExists (empl.id.getD genId)), s)) ∨
    (mapHas s.employees (empl.id.getD genId) = false ∧
      addEmployee s genId empl =
        (.ok { empl with id := some (empl.id.getD genId) },
         { employees := mapSet s.employees (empl.id.getD genId)
             { empl with id := some (empl.id.getD genId) },
           isUpdated := true })) := by
  by_cases hc : mapHas s.employees (empl.id.getD genId) = true
  · exact Or.inl ⟨hc, by simp [addEmployee, hc]⟩
  · exact Or.inr ⟨by simpa using hc, by simp [addEmployee, hc]⟩

theorem updateEmployee_spec (s : ServiceState) (id : String) (p : EmployeePatch) :
    (mapGet s.employees id = none ∧
      updateEmployee s id p = (.error (.notFound id), s)) ∨
    (∃ existing, mapGet s.employees id = some existing ∧
      updateEmployee s id p =
        (.ok (applyPatch existing p),
         { employees := mapSet s.employees id (applyPatch existing p),
           isUpdated := true })) := by
  cases hg : mapGet s.employees id with
  | none => exact Or.inl ⟨rfl, by simp [updateEmployee, getById, hg]⟩
  | some existing =>
    exact Or.inr ⟨existing, rfl, by simp [updateEmployee, getById, hg]⟩

theorem deleteEmployee_spec (s : ServiceState) (id : String) :
    (mapGet s.employees id = none ∧
      deleteEmployee s id = (.error (.notFound id), s)) ∨
    (∃ existing, mapGet s.employees id = some existing ∧
      deleteEmployee s id =
        (.ok existing,
         { employees := mapDelete s.employees id, isUpdated := true })) := by
  cases hg : mapGet s.employees id with
  | none => exact Or.inl ⟨rfl, by simp [deleteEmployee, getById, hg]⟩
  | some existing =>
    exact Or.inr ⟨existing, rfl, by simp [deleteEmployee, getById, hg]⟩

theorem keysNodup_reachable {s : ServiceState} (h : Reachable s) :
    keysNodup s.employees := by
  induction h with
  | init flag loaded => exact keysNodup_fill _ _
  | addStep genId empl h ih =>
    rcases addEmployee_spec _ genId empl with ⟨_, he⟩ | ⟨_, he⟩
    · rw [he]; exact ih
    · rw [he]; exact keysNodup_set _ _ ih
  | updateStep id p h ih =>
    rcases updateEmployee_spec _ id p with ⟨_, he⟩ | ⟨e, _, he⟩
    · rw [he]; exact ih
    · rw [he]; exact keysNodup_set _ _ ih
  | deleteStep id h ih =>
    rcases deleteEmployee_spec _ id with ⟨_, he⟩ | ⟨e, _, he⟩
    · rw [he]; exact ih
    · rw [he]; exact keysNodup_delete _ ih
  | reloadStep records h ih => exact keysNodup_fill _ _

/-! ### Reload round trip -/

theorem foldl_fill_values (m : EmpMap) :
    ∀ acc : EmpMap, wfMap m = true → (mapKeys acc ++ mapKeys m).Nodup →
      (mapValues m).foldl fillStep acc = acc ++ m := by
  induction m with
  | nil => intro acc _ _; simp [mapValues]
  | cons p rest ih =>
    intro acc hm hnd
    obtain ⟨k, v⟩ := p
    rw [wfMap_iff] at hm
    have hkv := hm (k, v) (List.mem_cons_self _ _)
    have hrest : wfMap rest = true := by
      rw [wfMap_iff]
      exact fun q hq => hm q (List.mem_cons_of_mem _ hq)
    rw [mapKeys_cons] at hnd
    have hk : k ∉ mapKeys acc := by
      intro hmem
      exact List.disjoint_of_nodup_append hnd hmem (List.mem_cons_self _ _)
    have hv1 : v.id = some k := hkv.1
    have hv2 : k ≠ "" := hkv.2
    rw [mapValues_cons, List.foldl_cons,
      show fillStep acc v = acc ++ [(k, v)] from by
        simp [fillStep, hv1, hv2, mapSet_of_fresh acc k v hk]]
    have hnd2 : (mapKeys (acc ++ [(k, v)]) ++ mapKeys rest).Nodup := by
      rw [mapKeys_append]
      simpa [mapKeys_cons, mapKeys_nil, List.append_assoc] using hnd
    rw [ih (acc ++ [(k, v)]) hrest hnd2]
    simp

theorem fill_toArray_eq {s : ServiceState} (hwf : wfMap s.employees = true)
    (hnd : keysNodup s.employees) : fillEmployeeMap s (toArray s) = s := by
  unfold fillEmployeeMap toArray
  rw [foldl_fill_values s.employees [] hwf
    (by simpa [mapKeys_nil] using hnd)]
  simp

/-! ### Sample records for concrete witnesses and counterexamples -/

/-- A record with a non-empty explicit id. -/
def annE : Employee := ⟨some "e1", "Ann", none, "Sales", "1990-01-01", 1000⟩

/-- A record with no id. -/
def joeE : Employee := ⟨none, "Joe", none, "Sales", "1991-02-02", 2000⟩

/-- A record whose id is the empty string. -/
def badE : Employee := ⟨some "", "Bad", none, "", "", 0⟩

/-! ### Claims -/

/-- C10: calling getAll with the empty string as the department
argument returns every stored record, identical to getAll with the
argument absent, because the truthiness test applies the filter only
to a non-empty department string. -/
theorem C10_getAll_empty_string (s : ServiceState) :
    getAll s (some "") = toArray s ∧ getAll s (some "") = getAll s none := by
  constructor <;> rfl

/-- C6 counterexample: getAll applied to the empty department string
returns a record whose department is Sales, not the empty string, so
the filter is not applied for every given department string. -/
theorem C6_counterexample :
    getAll ⟨[("e1", annE)], false⟩ (some "") = [annE] ∧ annE.department ≠ "" := by
  constructor
  · rfl
  · decide

/-- C6 amended: for every non-empty department string, getAll returns
exactly the stored records whose department equals it under exact
case-sensitive string equality, and getAll with the argument absent
returns every stored record.  (For the empty string the filter is
skipped, see C10.) -/
theorem C6_getAll_filter (s : ServiceState) (d : String) (hd : d ≠ "") :
    (∀ e, e ∈ getAll s (some d) ↔ e ∈ toArray s ∧ e.department = d) ∧
    getAll s none = toArray s := by
  constructor
  · intro e
    simp [getAll, toArray, hd, List.mem_filter]
  · rfl

/-- C6 witness at a concrete state and department. -/
theorem C6_getAll_filter_witness :
    (annE ∈ getAll ⟨[("e1", annE)], false⟩ (some "Sales") ↔
      annE ∈ toArray ⟨[("e1", annE)], false⟩ ∧ annE.department = "Sales") ∧
    getAll ⟨[("e1", annE)], false⟩ none = toArray ⟨[("e1", annE)], false⟩ :=
  ⟨(C6_getAll_filter ⟨[("e1", annE)], false⟩ "Sales" (by decide)).1 annE,
   (C6_getAll_filter ⟨[("e1", annE)], false⟩ "Sales" (by decide)).2⟩

/-- C5: update and delete fail with NotFound exactly when no record
with the id exists, and the failing call leaves the whole state (map
contents, hence also its size) unmodified. -/
theorem C5_notFound_exact (s : ServiceState) (id : String) (p : EmployeePatch) :
    ((updateEmployee s id p).1 = .error (.notFound id) ↔
      mapHas s.employees id = false) ∧
    ((deleteEmployee s id).1 = .error (.notFound id) ↔
      mapHas s.employees id = false) ∧
    (mapHas s.employees id = false →
      (updateEmployee s id p).2 = s ∧ (deleteEmployee s id).2 = s) := by
  cases hg : mapGet s.employees id with
  | none =>
    have h1 : mapHas s.employees id = false := by simp [mapHas, hg]
    refine ⟨?_, ?_, ?_⟩ <;>
      simp [updateEmployee, deleteEmployee, getById, hg, h1]
  | some e =>
    have h1 : mapHas s.employees id = true := by simp [mapHas, hg]
    refine ⟨?_, ?_, ?_⟩ <;>
      simp [updateEmployee, deleteEmployee, getById, hg, h1]

/-- C5 witness: the failing calls on a concrete state. -/
theorem C5_notFound_exact_witness :
    (updateEmployee ⟨[], false⟩ "missing-id" {}).2 = ⟨[], false⟩ ∧
    (deleteEmployee ⟨[], false⟩ "missing-id").2 = ⟨[], false⟩ :=
  (C5_notFound_exact ⟨[], false⟩ "missing-id" {}).2.2 (by decide)

/-- C4: add fails with AlreadyExists exactly when the resulting id
(the given one, or the generated one when the input has none) is
already a key; the failing call leaves the state unmodified; and two
adds with the same explicit id starting from an empty map succeed then
fail, leaving only the first record. -/
theorem C4_add_alreadyExists (s : ServiceState) (genId : String) (empl : Employee) :
    ((addEmployee s genId empl).1 =
        .error (.alreadyExists (empl.id.getD genId)) ↔
      mapHas s.employees (empl.id.getD genId) = true) ∧
    (mapHas s.employees (empl.id.getD genId) = true →
      (addEmployee s genId empl).2 = s) ∧
    (mapHas s.employees (empl.id.getD genId) = false →
      (addEmployee s genId empl).1 =
        .ok { empl with id := some (empl.id.getD genId) }) ∧
    (∀ flag id0 e1 e2 g1 g2, e1.id = some id0 → e2.id = some id0 →
      (addEmployee ⟨[], flag⟩ g1 e1).1 = .ok { e1 with id := some id0 } ∧
      (addEmployee (addEmployee ⟨[], flag⟩ g1 e1).2 g2 e2).1 =
        .error (.alreadyExists id0) ∧
      (addEmployee (addEmployee ⟨[], flag⟩ g1 e1).2 g2 e2).2.employees =
        [(id0, { e1 with id := some id0 })]) := by
  refine ⟨?_, ?_, ?_, ?_⟩
  · rcases addEmployee_spec s genId empl with ⟨hc, he⟩ | ⟨hc, he⟩
    · rw [he]
      simp [hc]
    · rw [he]
      simp [hc]
  · intro hc
    rcases addEmployee_spec s genId empl with ⟨_, he⟩ | ⟨hc2, he⟩
    · rw [he]
    · rw [hc] at hc2
      cases hc2
  · intro hc
    rcases addEmployee_spec s genId empl with ⟨hc2, he⟩ | ⟨_, he⟩
    · rw [hc] at hc2
      cases hc2
    · rw [he]
  · intro flag id0 e1 e2 g1 g2 h1 h2
    have e1eq : addEmployee ⟨[], flag⟩ g1 e1 =
        (.ok { e1 with id := some id0 },
         ⟨[(id0, { e1 with id := some id0 })], true⟩) := by
      simp [addEmployee, h1, mapHas, mapGet, mapSet]
    rw [e1eq]
    refine ⟨rfl, ?_, ?_⟩ <;> simp [addEmployee, h2, mapHas, mapGet]

/-- C4 witness: the failing second add on a concrete record. -/
theorem C4_add_alreadyExists_witness :
    (addEmployee ⟨[("e1", annE)], false⟩ "g" annE).2 = ⟨[("e1", annE)], false⟩ ∧
    (addEmployee (addEmployee ⟨[], false⟩ "g1" annE).2 "g2" annE).1 =
      .error (.alreadyExists "e1") ∧
    (addEmployee (addEmployee ⟨[], false⟩ "g1" annE).2 "g2" annE).2.employees =
      [("e1", { annE with id := some "e1" })] :=
  ⟨(C4_add_alreadyExists ⟨[("e1", annE)], false⟩ "g" annE).2.1 (by decide),
   ((C4_add_alreadyExists ⟨[], false⟩ "x" annE).2.2.2 false "e1" annE annE
      "g1" "g2" rfl rfl).2.1,
   ((C4_add_alreadyExists ⟨[], false⟩ "x" annE).2.2.2 false "e1" annE annE
      "g1" "g2" rfl rfl).2.2⟩

/-- C9: every successful add, update or delete sets the unsaved
changes flag, and the flag query returns the current flag value while
changing nothing. -/
theorem C9_unsavedChanges_flag (s : ServiceState) :
    (∀ genId empl e s1, addEmployee s genId empl = (.ok e, s1) →
      s1.isUpdated = true) ∧
    (∀ id p e s1, updateEmployee s id p = (.ok e, s1) →
      s1.isUpdated = true) ∧
    (∀ id e s1, deleteEmployee s id = (.ok e, s1) →
      s1.isUpdated = true) ∧
    (isUpdatedQuery s).1 = s.isUpdated ∧ (isUpdatedQuery s).2 = s := by
  refine ⟨?_, ?_, ?_, rfl, rfl⟩
  · intro genId empl e s1 h
    rcases addEmployee_spec s genId empl with ⟨_, he⟩ | ⟨_, he⟩ <;> rw [he] at h
    · injection h with h1 h2
      cases h1
    · injection h with h1 h2
      rw [← h2]
  · intro id p e s1 h
    rcases updateEmployee_spec s id p with ⟨_, he⟩ | ⟨e0, _, he⟩ <;> rw [he] at h
    · injection h with h1 h2
      cases h1
    · injection h with h1 h2
      rw [← h2]
  · intro id e s1 h
    rcases deleteEmployee_spec s id with ⟨_, he⟩ | ⟨e0, _, he⟩ <;> rw [he] at h
    · injection h with h1 h2
      cases h1
    · injection h with h1 h2
      rw [← h2]

/-- C9 witness: a concrete successful add sets the flag. -/
theorem C9_unsavedChanges_flag_witness :
    (addEmployee ⟨[], false⟩ "g1" joeE).2.isUpdated = true :=
  (C9_unsavedChanges_flag ⟨[], false⟩).1 "g1" joeE { joeE with id := some "g1" }
    (addEmployee ⟨[], false⟩ "g1" joeE).2 rfl

/-- C1: evaluation at the failing input.  With the record keyed under
the id `e1`, the call update(`e1`, patch with id `e2`) returns a record
whose id field is `e2` while it stays stored under the key `e1`: the
shallow merge does alter the id field, contradicting the claim. -/
theorem C1_update_id_overwritten :
    (updateEmployee ⟨[("e1", annE)], false⟩ "e1"
        { id := some (some "e2") }).1 = .ok { annE with id := some "e2" } ∧
    mapGet (updateEmployee ⟨[("e1", annE)], false⟩ "e1"
        { id := some (some "e2") }).2.employees "e1" =
      some { annE with id := some "e2" } ∧
    ({ annE with id := some "e2" } : Employee).id ≠ some "e1" := by
  refine ⟨rfl, by decide, by decide⟩

/-- C2 counterexample: add applied to a record whose id field is the
empty string inserts it under the empty key (nullish coalescing keeps
the empty string, and the empty key is not occupied), so the invariant
that every stored record has a non-empty id is not preserved by add. -/
theorem C2_counterexample :
    (addEmployee ⟨[], false⟩ "gen" badE).1 = .ok badE ∧
    (addEmployee ⟨[], false⟩ "gen" badE).2.employees = [("", badE)] ∧
    wfMap (addEmployee ⟨[], false⟩ "gen" badE).2.employees = false := by
  refine ⟨?_, by decide, by decide⟩
  have h : ({ badE with id := some "" } : Employee) = badE := by decide
  simp [addEmployee, mapHas, mapGet, badE, h]

/-- C2 amended: the invariant (every stored record carries a non-empty
id equal to its key) holds after reload unconditionally; it is
preserved by delete, by add whenever the input id is absent or
non-empty and the generated id is non-empty, and by update whenever
the patch does not contain the id field; and a record presented to
reload without a truthy id is never among the stored values. -/
theorem C2_invariant (s : ServiceState) (hs : wfMap s.employees = true) :
    (∀ records, wfMap (fillEmployeeMap s records).employees = true) ∧
    (∀ id, wfMap (deleteEmployee s id).2.employees = true) ∧
    (∀ genId empl, genId ≠ "" → empl.id ≠ some "" →
      wfMap (addEmployee s genId empl).2.employees = true) ∧
    (∀ id p, p.id = none →
      wfMap (updateEmployee s id p).2.employees = true) ∧
    (∀ records e, e ∈ records → (e.id = none ∨ e.id = some "") →
      e ∉ mapValues (fillEmployeeMap s records).employees) := by
  refine ⟨fun records => wfMap_fill s records, ?_, ?_, ?_, ?_⟩
  · intro id
    rcases deleteEmployee_spec s id with ⟨_, he⟩ | ⟨e, _, he⟩ <;> rw [he]
    · exact hs
    · exact wfMap_delete id hs
  · intro genId empl hg hne
    rcases addEmployee_spec s genId empl with ⟨_, he⟩ | ⟨_, he⟩ <;> rw [he]
    · exact hs
    · apply wfMap_set hs rfl
      rcases hi : empl.id with _ | i
      · simpa [hi] using hg
      · intro he2
        simp only [Option.getD_some] at he2
        exact hne (by rw [hi, he2])
  · intro id p hp
    rcases updateEmployee_spec s id p with ⟨_, he⟩ | ⟨e, hg, he⟩ <;> rw [he]
    · exact hs
    · have hmem := mem_of_mapGet_eq_some hg
      have hwf := (wfMap_iff s.employees).mp hs (id, e) hmem
      apply wfMap_set hs _ hwf.2
      simp [applyPatch, hp]
      exact hwf.1
  · intro records e hmem hbad hval
    have hwf := wfMap_fill s records
    rcases List.mem_map.mp hval with ⟨q, hq, hqe⟩
    have h2 := (wfMap_iff _).mp hwf q hq
    rcases hbad with h3 | h3 <;> rw [hqe, h3] at h2
    · exact Option.noConfusion h2.1
    · exact h2.2 (by injection h2.1 with h4; exact h4.symm)

/-- C2 witness: reload skips the record with the empty id, add with a
generated id keeps the invariant. -/
theorem C2_invariant_witness :
    wfMap (fillEmployeeMap ⟨[], false⟩ [badE, annE]).employees = true ∧
    wfMap (addEmployee ⟨[], false⟩ "g1" joeE).2.employees = true ∧
    badE ∉ mapValues (fillEmployeeMap ⟨[], false⟩ [badE, annE]).employees :=
  ⟨(C2_invariant ⟨[], false⟩ rfl).1 [badE, annE],
   (C2_invariant ⟨[], false⟩ rfl).2.2.1 "g1" joeE (by decide) (by decide),
   (C2_invariant ⟨[], false⟩ rfl).2.2.2.2 [badE, annE] badE
     (by decide) (Or.inr rfl)⟩

/-- C7: on a state satisfying the section 3 invariant, adding a record
with no id under a generated identifier that is non-empty and not yet
a key (the contract of uuidv4) returns the stored record carrying that
id, and getAll afterwards holds exactly one record with that id, equal
to the input on every other field. -/
theorem C7_add_generates_id (s : ServiceState) (genId : String) (r : Employee)
    (hwf : wfMap s.employees = true) (hid : r.id = none)
    (hg2 : mapHas s.employees genId = false) :
    (addEmployee s genId r).1 = .ok { r with id := some genId } ∧
    (getAll (addEmployee s genId r).2 none).filter
        (fun e => e.id = some genId) = [{ r with id := some genId }] := by
  rcases addEmployee_spec s genId r with ⟨hc, he⟩ | ⟨hc, he⟩
  · rw [hid] at hc
    simp only [Option.getD_none] at hc
    rw [hc] at hg2
    cases hg2
  · rw [hid] at he
    simp only [Option.getD_none] at he
    rw [he]
    refine ⟨rfl, ?_⟩
    have hfresh : genId ∉ mapKeys s.employees := (mapHas_false_iff _ _).mp hg2
    rw [show getAll ⟨mapSet s.employees genId { r with id := some genId },
          true⟩ none
        = mapValues (mapSet s.employees genId { r with id := some genId })
        from rfl]
    rw [mapSet_of_fresh _ _ _ hfresh,
      show mapValues (s.employees ++ [(genId, { r with id := some genId })])
        = mapValues s.employees ++ [{ r with id := some genId }] from by
        simp [mapValues],
      List.filter_append]
    have h1 : (mapValues s.employees).filter
        (fun e => e.id = some genId) = [] := by
      rw [List.filter_eq_nil_iff]
      intro e hmem
      rcases List.mem_map.mp hmem with ⟨q, hq, hqe⟩
      have h2 := (wfMap_iff _).mp hwf q hq
      simp only [decide_eq_true_eq]
      intro hei
      rw [← hqe, h2.1] at hei
      injection hei with h3
      exact hfresh (h3 ▸ List.mem_map_of_mem Prod.fst hq)
    rw [h1]
    simp

/-- C7 witness: a concrete add with a generated id. -/
theorem C7_add_generates_id_witness :
    (addEmployee ⟨[("e1", annE)], false⟩ "u1" joeE).1 =
      .ok { joeE with id := some "u1" } ∧
    (getAll (addEmployee ⟨[("e1", annE)], false⟩ "u1" joeE).2 none).filter
        (fun e => e.id = some "u1") = [{ joeE with id := some "u1" }] :=
  C7_add_generates_id ⟨[("e1", annE)], false⟩ "u1" joeE (by decide) rfl
    (by decide)

/-- C8: on a state satisfying the section 3 invariant, deleting a
present id returns the prior record, getAll afterwards holds no record
with that id, and a second delete of the same id fails with NotFound. -/
theorem C8_delete_removes (s : ServiceState) (id : String) (e : Employee)
    (hwf : wfMap s.employees = true) (hnd : keysNodup s.employees)
    (hget : mapGet s.employees id = some e) :
    (deleteEmployee s id).1 = .ok e ∧
    (∀ e2, e2 ∈ getAll (deleteEmployee s id).2 none → e2.id ≠ some id) ∧
    (deleteEmployee (deleteEmployee s id).2 id).1 =
      .error (.notFound id) := by
  rcases deleteEmployee_spec s id with ⟨hg, he⟩ | ⟨e0, hg, he⟩
  · rw [hget] at hg
    cases hg
  · rw [hget] at hg
    injection hg with hg2
    subst hg2
    rw [he]
    refine ⟨rfl, ?_, ?_⟩
    · intro e2 hmem hid2
      rcases List.mem_map.mp hmem with ⟨q, hq, hqe⟩
      have hq2 := mem_mapDelete hq
      have h2 := (wfMap_iff _).mp hwf q hq2
      rw [← hqe, h2.1] at hid2
      injection hid2 with h3
      have hq3 : (id, q.2) ∈ mapDelete s.employees id := by
        have h5 : (q.1, q.2) ∈ mapDelete s.employees id := by simpa using hq
        rw [h3] at h5
        exact h5
      have h4 := mapGet_of_mem (keysNodup_delete id hnd) hq3
      rw [mapGet_delete_self id hnd] at h4
      cases h4
    · rcases deleteEmployee_spec ⟨mapDelete s.employees id, true⟩ id with
        ⟨hg3, he3⟩ | ⟨e3, hg3, he3⟩
      · rw [he3]
      · rw [show (ServiceState.mk (mapDelete s.employees id) true).employees
            = mapDelete s.employees id from rfl,
          mapGet_delete_self id hnd] at hg3
        cases hg3

/-- C8 witness: deleting a concrete record twice. -/
theorem C8_delete_removes_witness :
    (deleteEmployee ⟨[("e1", annE)], false⟩ "e1").1 = .ok annE ∧
    (deleteEmployee (deleteEmployee ⟨[("e1", annE)], false⟩ "e1").2 "e1").1 =
      .error (.notFound "e1") :=
  ⟨(C8_delete_removes ⟨[("e1", annE)], false⟩ "e1" annE (by decide)
      (by unfold keysNodup; decide) (by decide)).1,
   (C8_delete_removes ⟨[("e1", annE)], false⟩ "e1" annE (by decide)
      (by unfold keysNodup; decide) (by decide)).2.2⟩

/-- C3 counterexample: the state holding one record under the empty
key is reachable (add keeps an explicit empty-string id), yet
reloading its own snapshot drops the record, so the record set is not
left unchanged on every reachable state. -/
theorem C3_counterexample :
    Reachable (ServiceState.mk [("", badE)] true) ∧
    mapValues (ServiceState.mk [("", badE)] true).employees = [badE] ∧
    mapValues (fillEmployeeMap (ServiceState.mk [("", badE)] true)
        (toArray (ServiceState.mk [("", badE)] true))).employees = [] := by
  refine ⟨?_, rfl, by decide⟩
  have h0 : (addEmployee (fillEmployeeMap ⟨[], false⟩ []) "gen" badE).2 =
      ServiceState.mk [("", badE)] true := by decide
  exact h0 ▸ Reachable.addStep "gen" badE (Reachable.init false [])

/-- C3 amended: on every reachable state all of whose stored records
satisfy the section 3 invariant (non-empty id equal to the key),
reloading the snapshot leaves the state, hence the record set,
unchanged. -/
theorem C3_reload_roundtrip (s : ServiceState) (h : Reachable s)
    (hwf : wfMap s.employees = true) :
    fillEmployeeMap s (toArray s) = s :=
  fill_toArray_eq hwf (keysNodup_reachable h)

/-- C3 witness: the round trip on a concrete reachable state. -/
theorem C3_reload_roundtrip_witness :
    fillEmployeeMap (ServiceState.mk [("e1", annE)] true)
      (toArray (ServiceState.mk [("e1", annE)] true)) =
    ServiceState.mk [("e1", annE)] true :=
  C3_reload_roundtrip (ServiceState.mk [("e1", annE)] true)
    (by
      have h0 : (addEmployee (fillEmployeeMap ⟨[], false⟩ []) "g" annE).2 =
          ServiceState.mk [("e1", annE)] true := by decide
      exact h0 ▸ Reachable.addStep "g" annE (Reachable.init false []))
    (by decide)
